import Mathlib

/-!
Shallow embedding of the HLS-1024 hash pipeline (`src/main.rs`).

Bytes are modelled as `Nat` values below 256, arbitrary-precision integers
(`BigUint`) as `Nat`, and byte vectors as `List Nat`.  The two SHAKE
extendable-output functions from the external `sha3` crate are modelled as
explicit function parameters `shake128 shake256 : List Nat → Nat → List Nat`
mapping the accumulated input bytes and a requested output length to the
squeezed bytes; theorems that need the XOF contract assume that the returned
list has the requested length.
-/

set_option maxRecDepth 10000
set_option exponentiation.threshold 2000

-- ===== Parameter initialization (`InitializeParameters`) =====

/-- One hexadecimal digit, as accepted by `BigUint::parse_bytes(_, 16)`. -/
def hexDigitVal (c : Char) : Option Nat :=
  let n := c.toNat
  if 48 ≤ n ∧ n ≤ 57 then some (n - 48)
  else if 65 ≤ n ∧ n ≤ 70 then some (n - 55)
  else if 97 ≤ n ∧ n ≤ 102 then some (n - 87)
  else none

/-- `BigUint::parse_bytes(s, 16)`: big-endian hex parse, failing on an empty
string or any non-hex character. -/
def parseHexBytes (s : String) : Option Nat :=
  if s.isEmpty then none
  else s.data.foldl (fun acc c =>
    match acc, hexDigitVal c with
    | some a, some d => some (a * 16 + d)
    | _, _ => none) (some 0)

/-- The embedded modulus constant of `InitializeParameters` (the four
concatenated string literals). -/
def primeHexStr : String :=
  "FFFFFFFFFFFFFFFFC90FDAA22168C234C4C6628B80DC1CD1" ++
  "29024E088A67CC74020BBEA63B139B22514A08798E3404DD" ++
  "EF9519B3CD3A431B302B0A6DF25F14374FE1356D6D51C245" ++
  "E485B576625E7EC6F44C42E9A63A36210000000000090563"

/-- `PRIME_MODULUS`: the parsed modulus (`.unwrap()` modelled by `getD 0`;
the parse is proved to succeed). -/
def PRIME_MODULUS : Nat := (parseHexBytes primeHexStr).getD 0

/-- Fuel-indexed bit-length helper (the fuel only bounds the recursion). -/
def bitLenAux : Nat → Nat → Nat
  | 0, _ => 0
  | fuel+1, n => if n = 0 then 0 else bitLenAux fuel (n / 2) + 1

/-- `BigUint::bits()`: number of binary digits (0 for 0). -/
def bitLen (n : Nat) : Nat := bitLenAux n n

/-- `WORD_BITS` / `WordBitsValue()`: bit length of the modulus. -/
def WordBitsValue : Nat := bitLen PRIME_MODULUS

/-- `BYTES_PER_ELEM` / `BytesPerElemValue()`: `(bits + 7) / 8`. -/
def BytesPerElemValue : Nat := (WordBitsValue + 7) / 8

-- ===== Global constants =====

def StateSize : Nat := 512

def RoundCount : Nat := 16

def OutputBitLength : Nat := 1024

def BlockBytes : Nat := 64

/-- ASCII bytes of a string literal. -/
def strBytes (s : String) : List Nat := s.data.map Char.toNat

/-- `SeedString = b"HLS-1024-v0.2"`. -/
def SeedString : List Nat := strBytes "HLS-1024-v0.2"

-- ===== Byte/integer conversions (num-bigint) =====

/-- `BigUint::from_bytes_be`. -/
def fromBytesBE (l : List Nat) : Nat := l.foldl (fun acc b => acc * 256 + b) 0

/-- Big-endian bytes of `n` written with exactly `k` digits (low digits kept). -/
def fixedBE : Nat → Nat → List Nat
  | 0, _ => []
  | k+1, n => fixedBE k (n / 256) ++ [n % 256]

/-- Minimal byte length of `n`. -/
def byteLen (n : Nat) : Nat := (bitLen n + 7) / 8

/-- `BigUint::to_bytes_be`: minimal big-endian bytes, `[0]` for zero. -/
def toBytesBE (n : Nat) : List Nat := if n = 0 then [0] else fixedBE (byteLen n) n

/-- Rust `slice::chunks` (fuel-indexed; `chunksOf` supplies enough fuel). -/
def chunksOfAux (k : Nat) : Nat → List Nat → List (List Nat)
  | 0, _ => []
  | _, [] => []
  | fuel+1, l => l.take k :: chunksOfAux k fuel (l.drop k)

/-- Rust `slice::chunks(k)` for `k > 0`. -/
def chunksOf (k : Nat) (l : List Nat) : List (List Nat) := chunksOfAux k l.length l

-- ===== Internal utilities =====

/-- `ShakeInts`: squeeze `count * bytes_per_int` bytes from the XOF seeded
with `seed` and slice them into `count` big-endian integers. -/
def ShakeInts (shake128 : List Nat → Nat → List Nat) (seed : List Nat)
    (count : Nat) (bytes_per_int : Option Nat) : List Nat :=
  let bpi := bytes_per_int.getD BytesPerElemValue
  let raw := shake128 seed (count * bpi)
  (List.range count).map fun i => fromBytesBE ((raw.drop (i * bpi)).take bpi)

/-- `DeriveConst`: domain-separated constants, reduced mod the modulus. -/
def DeriveConst (shake128 : List Nat → Nat → List Nat) (label : List Nat)
    (n : Nat) : List Nat :=
  (ShakeInts shake128 (SeedString ++ strBytes "::const::" ++ label) n none).map
    (· % PRIME_MODULUS)

/-- `InitializeState`. -/
def InitializeState (shake128 : List Nat → Nat → List Nat) : List Nat :=
  DeriveConst shake128 (strBytes "init") StateSize

-- ===== Core transforms =====

/-- `Rol`: left-rotate the low `bits` bits of `x` by `r`. -/
def Rol (x r bits : Nat) : Nat :=
  let r2 := r % bits
  let mask := (1 <<< bits) - 1
  ((x <<< r2) ||| (x >>> (bits - r2))) &&& mask

/-- Defensive zero-padding of a block to a multiple of 8 bytes. -/
def padToWords (block : List Nat) : List Nat :=
  if block.length % 8 ≠ 0 then block ++ List.replicate (8 - block.length % 8) 0
  else block

/-- One iteration of the absorb loop: fold word `w` (at enumeration index
`i`) into the state. -/
def absorbWord (wb : Nat) (s : List Nat) (i : Nat) (w : Nat) : List Nat :=
  let idx := i % s.length
  let s1 := s.set idx ((s.getD idx 0 + w) % PRIME_MODULUS)
  let nidx := (idx + 1) % s.length
  let mask := (1 <<< wb) - 1
  s1.set nidx (s1.getD nidx 0 ^^^ ((w >>> 16) &&& mask))

/-- The absorb loop over the word list, enumerating from index `i`. -/
def absorbWords (wb : Nat) : List Nat → List Nat → Nat → List Nat
  | s, [], _ => s
  | s, w :: ws, i => absorbWords wb (absorbWord wb s i w) ws (i + 1)

/-- `AbsorbMessageBlock`. -/
def AbsorbMessageBlock (state : List Nat) (block : List Nat) : List Nat :=
  absorbWords WordBitsValue state
    ((chunksOf 8 (padToWords block)).map fromBytesBE) 0

/-- `ApplyLinearDiffusion`. -/
def ApplyLinearDiffusion (state : List Nat) : List Nat :=
  let n := state.length
  let wb := WordBitsValue
  (List.range n).map fun i =>
    let a := state.getD i 0
    let b := state.getD ((i + 1) % n) 0
    let c := state.getD ((i + 7) % n) 0
    let mix := (a + (b ^^^ (c >>> 3))) % PRIME_MODULUS
    Rol mix ((i * 3) % wb) wb

/-- `ApplyNonLinearConfusion` (modular exponentiation `modpow` is `^ · % P`). -/
def ApplyNonLinearConfusion (state : List Nat) : List Nat :=
  state.map fun x =>
    (x ^ 3 % PRIME_MODULUS + x ^ 5 % PRIME_MODULUS + 17) % PRIME_MODULUS

/-- `PerformRound`. -/
def PerformRound (state : List Nat) : List Nat :=
  ApplyNonLinearConfusion (ApplyLinearDiffusion state)

-- ===== Finalization and extraction =====

/-- The finalization loop body, iterated. -/
def finalizeAux : Nat → List Nat → List Nat
  | 0, s => s
  | k+1, s => finalizeAux k (ApplyNonLinearConfusion (ApplyLinearDiffusion s))

/-- `FinalizeState`: four extra diffusion+confusion passes. -/
def FinalizeState (state : List Nat) : List Nat := finalizeAux 4 state

/-- Serialization of one state element inside `ExtractDigest`: minimal
big-endian bytes, left-zero-padded when shorter than `BytesPerElemValue`. -/
def serializeElem (v : Nat) : List Nat :=
  let bytes := toBytesBE v
  if bytes.length < BytesPerElemValue then
    List.replicate (BytesPerElemValue - bytes.length) 0 ++ bytes
  else bytes

/-- `ExtractDigest`: the incremental XOF updates are modelled as one
concatenated input. -/
def ExtractDigest (shake256 : List Nat → Nat → List Nat)
    (state : List Nat) : List Nat :=
  shake256
    (SeedString ++ strBytes "::extract" ++ (state.map serializeElem).flatten)
    (OutputBitLength / 8)

-- ===== Top-level hash =====

/-- The padding performed inside `SplitIntoBlocks`: `0x01`, then
`padlen = (-(l) - 2).rem_euclid 64` zero bytes, then `0x80`. -/
def PadMessage (message : List Nat) : List Nat :=
  let l := message.length
  let padlen := ((-(l : Int) - 2) % (BlockBytes : Int)).toNat
  message ++ [0x01] ++ List.replicate padlen 0x00 ++ [0x80]

/-- `SplitIntoBlocks`: pad, then chunk into `BlockBytes`-sized blocks. -/
def SplitIntoBlocks (message : List Nat) : List (List Nat) :=
  chunksOf BlockBytes (PadMessage message)

/-- The inner `for _ in 0..RoundCount` loop of `Hls1024Hash`. -/
def roundsN : Nat → List Nat → List Nat
  | 0, s => s
  | k+1, s => roundsN k (PerformRound s)

/-- `Hls1024Hash`. -/
def Hls1024Hash (shake128 shake256 : List Nat → Nat → List Nat)
    (message : List Nat) : List Nat :=
  ExtractDigest shake256
    (FinalizeState
      ((SplitIntoBlocks message).foldl
        (fun s blk => roundsN RoundCount (AbsorbMessageBlock s blk))
        (InitializeState shake128)))

-- ===== Concrete inputs and spec-side transcriptions =====

/-- Concrete 512-element state, all entries below the modulus. -/
def cexState : List Nat := (List.replicate 512 0).set 1 (PRIME_MODULUS - 0x90563)

/-- Concrete 8-byte block whose single word is `0x1000000000`, so the XOR
diffusion step flips bit 20 of state element 1. -/
def cexBlock : List Nat := [0, 0, 0, 0x10, 0, 0, 0, 0]

/-- Transcribed from the claim's wording (for the refinement proof of C5):
right-pad the block with zero bytes to a multiple of 8, parse 8-byte
big-endian words, and fold each word `w` at position `i` into the state by
adding into `state[i mod 512]` modulo `P` and then XORing
`(w >> 16) AND ((1 << WordBits) - 1)` into `state[((i mod 512)+1) mod 512]`,
in that order. -/
def specAbsorb (s : List Nat) (b : List Nat) : List Nat :=
  let padded := b ++ List.replicate ((8 - b.length % 8) % 8) 0
  let words := (List.range (padded.length / 8)).map fun i =>
    fromBytesBE ((padded.drop (8 * i)).take 8)
  words.enum.foldl (fun st p =>
    let idx := p.1 % 512
    let st1 := st.set idx ((st.getD idx 0 + p.2) % PRIME_MODULUS)
    let nidx := (idx + 1) % 512
    st1.set nidx (st1.getD nidx 0 ^^^
      ((p.2 >>> 16) &&& ((1 <<< WordBitsValue) - 1)))) s

-- ===== Basic parameter facts =====

theorem parseHex_ok : parseHexBytes primeHexStr = some PRIME_MODULUS := by decide

theorem PRIME_MODULUS_pos : 0 < PRIME_MODULUS := by decide

theorem WordBitsValue_eq : WordBitsValue = 768 := by decide

theorem BytesPerElemValue_eq : BytesPerElemValue = 96 := by decide

theorem PRIME_MODULUS_lt : PRIME_MODULUS < 2 ^ 768 := by decide

theorem PRIME_MODULUS_ge : 2 ^ 767 ≤ PRIME_MODULUS := by decide

-- ===== Helper lemmas =====

theorem PRIME_le_two_pow_wb : PRIME_MODULUS ≤ 2 ^ WordBitsValue := by
  rw [WordBitsValue_eq]
  exact Nat.le_of_lt PRIME_MODULUS_lt

theorem confusion_mem_lt (s : List Nat) :
    ∀ x ∈ ApplyNonLinearConfusion s, x < PRIME_MODULUS := by
  intro x hx
  obtain ⟨a, _, rfl⟩ := List.mem_map.mp hx
  exact Nat.mod_lt _ PRIME_MODULUS_pos

theorem deriveConst_mem_lt (shake128 : List Nat → Nat → List Nat)
    (label : List Nat) (n : Nat) :
    ∀ x ∈ DeriveConst shake128 label n, x < PRIME_MODULUS := by
  intro x hx
  obtain ⟨a, _, rfl⟩ := List.mem_map.mp hx
  exact Nat.mod_lt _ PRIME_MODULUS_pos

theorem getD_lt_of_all_lt {s : List Nat} {B : Nat} (hB : 0 < B)
    (hs : ∀ x ∈ s, x < B) (i : Nat) : s.getD i 0 < B := by
  rcases Nat.lt_or_ge i s.length with h | h
  · rw [List.getD_eq_getElem s 0 h]
    exact hs _ (List.getElem_mem h)
  · rw [List.getD_eq_default s 0 h]
    exact hB

theorem absorbWord_mem_lt {wb : Nat} {s : List Nat}
    (hP : PRIME_MODULUS ≤ 2 ^ wb)
    (hs : ∀ x ∈ s, x < 2 ^ wb) (i w : Nat) :
    ∀ x ∈ absorbWord wb s i w, x < 2 ^ wb := by
  intro x hx
  unfold absorbWord at hx
  have hs1 : ∀ y ∈ s.set (i % s.length)
      ((s.getD (i % s.length) 0 + w) % PRIME_MODULUS), y < 2 ^ wb := by
    intro y hy
    rcases List.mem_or_eq_of_mem_set hy with hy2 | rfl
    · exact hs y hy2
    · exact Nat.lt_of_lt_of_le (Nat.mod_lt _ PRIME_MODULUS_pos) hP
  rcases List.mem_or_eq_of_mem_set hx with hx2 | rfl
  · exact hs1 x hx2
  · apply Nat.xor_lt_two_pow
    · exact getD_lt_of_all_lt (Nat.two_pow_pos wb) hs1 _
    · have hmask : (1 <<< wb) - 1 < 2 ^ wb := by
        rw [Nat.shiftLeft_eq, Nat.one_mul]
        exact Nat.sub_lt (Nat.two_pow_pos wb) Nat.one_pos
      exact Nat.lt_of_le_of_lt (Nat.and_le_right) hmask

theorem absorbWords_mem_lt {wb : Nat} (hP : PRIME_MODULUS ≤ 2 ^ wb) :
    ∀ (ws : List Nat) (i : Nat) (s : List Nat), (∀ x ∈ s, x < 2 ^ wb) →
      ∀ x ∈ absorbWords wb s ws i, x < 2 ^ wb := by
  intro ws
  induction ws with
  | nil => intro i s hs; simpa [absorbWords] using hs
  | cons w ws ih =>
    intro i s hs
    exact ih (i + 1) (absorbWord wb s i w) (absorbWord_mem_lt hP hs i w)

theorem absorb_mem_lt {s : List Nat} (hs : ∀ x ∈ s, x < PRIME_MODULUS)
    (b : List Nat) :
    ∀ x ∈ AbsorbMessageBlock s b, x < 2 ^ WordBitsValue := by
  apply absorbWords_mem_lt PRIME_le_two_pow_wb
  intro x hx
  exact Nat.lt_of_lt_of_le (hs x hx) PRIME_le_two_pow_wb

theorem finalize_eq_rounds (s : List Nat) :
    FinalizeState s = PerformRound (PerformRound (PerformRound (PerformRound s))) :=
  rfl

theorem roundsN_eq_iterate (k : Nat) : ∀ s, roundsN k s = PerformRound^[k] s := by
  induction k with
  | zero => intro s; rfl
  | succ k ih =>
    intro s
    rw [Function.iterate_succ_apply]
    exact ih (PerformRound s)

-- ===== C1 =====

/-- C1 (counterexample): a state whose entries all satisfy `0 ≤ x < P` is
mapped by `AbsorbMessageBlock` to a state with an entry `≥ P`: the XOR
diffusion step is not reduced modulo `P`, so the invariant `element < P`
does not hold after every absorb. -/
theorem C1_absorb_breaks_invariant :
    (∀ x ∈ cexState, x < PRIME_MODULUS) ∧
    ¬ (∀ x ∈ AbsorbMessageBlock cexState cexBlock, x < PRIME_MODULUS) := by
  decide

/-- C1 (amended): every element of the state is below `P` after
`InitializeState`, after every `PerformRound`, and after `FinalizeState`;
after `AbsorbMessageBlock` every element is only guaranteed below
`2 ^ WordBitsValue` (the XOR step can push an element into
`[P, 2 ^ WordBitsValue)`). -/
theorem C1_state_invariant :
    (∀ shake128 : List Nat → Nat → List Nat,
      ∀ x ∈ InitializeState shake128, x < PRIME_MODULUS) ∧
    (∀ s b : List Nat, (∀ x ∈ s, x < PRIME_MODULUS) →
      ∀ x ∈ AbsorbMessageBlock s b, x < 2 ^ WordBitsValue) ∧
    (∀ s : List Nat, ∀ x ∈ PerformRound s, x < PRIME_MODULUS) ∧
    (∀ s : List Nat, ∀ x ∈ FinalizeState s, x < PRIME_MODULUS) := by
  refine ⟨?_, ?_, ?_, ?_⟩
  · intro shake128
    exact deriveConst_mem_lt shake128 (strBytes "init") StateSize
  · intro s b hs
    exact absorb_mem_lt hs b
  · intro s
    exact confusion_mem_lt (ApplyLinearDiffusion s)
  · intro s
    rw [finalize_eq_rounds]
    exact confusion_mem_lt _

theorem C1_state_invariant_witness : (0 : Nat) < 2 ^ WordBitsValue :=
  C1_state_invariant.2.1 [0] [] (by decide) 0 (by decide)

-- ===== C2 =====

/-- C2: `Hls1024Hash` is exactly the composition: initialize, then for each
padded 64-byte block absorb followed by 16 rounds, then 4 extra
diffusion+confusion passes with no further absorption, then extract. -/
theorem C2_pipeline_composition :
    ∀ (shake128 shake256 : List Nat → Nat → List Nat) (m : List Nat),
      Hls1024Hash shake128 shake256 m =
        ExtractDigest shake256
          ((fun s => ApplyNonLinearConfusion (ApplyLinearDiffusion s))^[4]
            ((SplitIntoBlocks m).foldl
              (fun s blk => PerformRound^[16] (AbsorbMessageBlock s blk))
              (InitializeState shake128))) := by
  intro shake128 shake256 m
  unfold Hls1024Hash
  have hfold :
      (fun (s : List Nat) blk => roundsN RoundCount (AbsorbMessageBlock s blk)) =
      (fun (s : List Nat) blk => PerformRound^[16] (AbsorbMessageBlock s blk)) := by
    funext s blk
    exact roundsN_eq_iterate RoundCount (AbsorbMessageBlock s blk)
  rw [hfold]
  rfl

-- ===== C8 =====

/-- C8: `Hls1024Hash` is deterministic: evaluations on equal messages (with
the same XOF primitives) produce equal digests; there is no other input. -/
theorem C8_deterministic :
    ∀ (shake128 shake256 : List Nat → Nat → List Nat) (m m2 : List Nat),
      m = m2 → Hls1024Hash shake128 shake256 m = Hls1024Hash shake128 shake256 m2 := by
  intro _ _ _ _ h
  rw [h]

theorem C8_deterministic_witness :
    Hls1024Hash (fun _ n => List.replicate n 0) (fun _ n => List.replicate n 0) [] =
      Hls1024Hash (fun _ n => List.replicate n 0) (fun _ n => List.replicate n 0) [] :=
  C8_deterministic (fun _ n => List.replicate n 0) (fun _ n => List.replicate n 0) [] [] rfl

-- ===== C9 =====

/-- C9: the embedded modulus constant (192 hex digits) parses successfully
to a 768-bit integer, hence `WordBitsValue = 768` and
`BytesPerElemValue = 96`, although the digest is 1024 bits long. -/
theorem C9_parameters :
    primeHexStr.length = 192 ∧
    parseHexBytes primeHexStr = some PRIME_MODULUS ∧
    2 ^ 767 ≤ PRIME_MODULUS ∧ PRIME_MODULUS < 2 ^ 768 ∧
    WordBitsValue = 768 ∧ BytesPerElemValue = 96 ∧
    OutputBitLength = 1024 :=
  ⟨by decide, parseHex_ok, PRIME_MODULUS_ge, PRIME_MODULUS_lt,
    WordBitsValue_eq, BytesPerElemValue_eq, rfl⟩

-- ===== C3 =====

theorem chunksOfAux_len64 :
    ∀ (fuel : Nat) (l : List Nat), l.length ≤ fuel → l.length % 64 = 0 →
      ∀ c ∈ chunksOfAux 64 fuel l, c.length = 64 := by
  intro fuel
  induction fuel with
  | zero =>
    intro l _ _ c hc
    simp [chunksOfAux] at hc
  | succ fuel ih =>
    intro l hl hmod c hc
    match l with
    | [] => simp [chunksOfAux] at hc
    | x :: xs =>
      have hlen : (x :: xs).length = xs.length + 1 := rfl
      have hc : c ∈ (x :: xs).take 64 :: chunksOfAux 64 fuel ((x :: xs).drop 64) := hc
      rcases List.mem_cons.mp hc with rfl | hc2
      · rw [List.length_take]
        omega
      · refine ih ((x :: xs).drop 64) ?_ ?_ c hc2
        · rw [List.length_drop]
          omega
        · rw [List.length_drop]
          omega

/-- C3: padding appends `0x01`, then `padlen = ((-(len) - 2) mod 64)` zero
bytes (with `0 ≤ padlen < 64`), then `0x80`; the padded length is a positive
multiple of 64 exceeding the original length by at least 2, and
`SplitIntoBlocks` chunks it into blocks of exactly 64 bytes. -/
theorem C3_padding_blocks :
    ∀ m : List Nat,
      PadMessage m =
        m ++ [0x01] ++
          List.replicate ((-(m.length : Int) - 2) % 64).toNat 0x00 ++ [0x80]
      ∧ ((-(m.length : Int) - 2) % 64).toNat < 64
      ∧ (PadMessage m).length % 64 = 0
      ∧ 0 < (PadMessage m).length
      ∧ m.length + 2 ≤ (PadMessage m).length
      ∧ SplitIntoBlocks m = chunksOf 64 (PadMessage m)
      ∧ ∀ blk ∈ SplitIntoBlocks m, blk.length = 64 := by
  intro m
  have hlen : (PadMessage m).length =
      m.length + 1 + ((-(m.length : Int) - 2) % 64).toNat + 1 := by
    simp [PadMessage, BlockBytes]
    omega
  refine ⟨rfl, by omega, ?_, by omega, by omega, rfl, ?_⟩
  · rw [hlen]
    omega
  · intro blk hblk
    refine chunksOfAux_len64 (PadMessage m).length (PadMessage m) le_rfl ?_ blk hblk
    rw [hlen]
    omega

theorem C3_padding_blocks_witness :
    (([0x01] ++ List.replicate 62 (0x00 : Nat) ++ [0x80]) : List Nat).length = 64 :=
  (C3_padding_blocks []).2.2.2.2.2.2 ([0x01] ++ List.replicate 62 0x00 ++ [0x80])
    (by decide)

-- ===== C4 =====

theorem mod_add_mod_add (a b : Nat) :
    (a % PRIME_MODULUS + b % PRIME_MODULUS + 17) % PRIME_MODULUS =
      (a + b + 17) % PRIME_MODULUS := by
  rw [Nat.add_mod (a % PRIME_MODULUS + b % PRIME_MODULUS) 17,
    Nat.add_mod (a + b) 17, Nat.add_mod a b]

/-- C4: one round is `Confuse (Diffuse s)`; `Diffuse` reads only the
pre-round values at positions `i`, `(i+1) mod n`, `(i+7) mod n` and rotates
the mixed sum; `Confuse` maps each element `x` independently to
`(x^3 + x^5 + 17) mod P`. -/
theorem C4_round_formulas :
    ∀ (s : List Nat) (i : Nat), i < s.length →
      PerformRound s = ApplyNonLinearConfusion (ApplyLinearDiffusion s) ∧
      (ApplyLinearDiffusion s).getD i 0 =
        Rol ((s.getD i 0 +
            (s.getD ((i + 1) % s.length) 0 ^^^ (s.getD ((i + 7) % s.length) 0 >>> 3)))
          % PRIME_MODULUS)
          ((i * 3) % WordBitsValue) WordBitsValue ∧
      (ApplyNonLinearConfusion s).getD i 0 =
        (s.getD i 0 ^ 3 + s.getD i 0 ^ 5 + 17) % PRIME_MODULUS := by
  intro s i hi
  refine ⟨rfl, ?_, ?_⟩
  · have hi2 : i < (ApplyLinearDiffusion s).length := by
      simpa [ApplyLinearDiffusion] using hi
    rw [List.getD_eq_getElem _ _ hi2]
    simp only [ApplyLinearDiffusion, List.getElem_map, List.getElem_range]
  · have hi3 : i < (ApplyNonLinearConfusion s).length := by
      simpa [ApplyNonLinearConfusion] using hi
    rw [List.getD_eq_getElem _ _ hi3, List.getD_eq_getElem s 0 hi]
    simp only [ApplyNonLinearConfusion, List.getElem_map]
    exact mod_add_mod_add _ _

theorem C4_round_formulas_witness :
    PerformRound [5] = ApplyNonLinearConfusion (ApplyLinearDiffusion [5]) ∧
    (ApplyLinearDiffusion [5]).getD 0 0 =
      Rol ((([5] : List Nat).getD 0 0 +
          (([5] : List Nat).getD ((0 + 1) % ([5] : List Nat).length) 0 ^^^
            (([5] : List Nat).getD ((0 + 7) % ([5] : List Nat).length) 0 >>> 3)))
        % PRIME_MODULUS)
        ((0 * 3) % WordBitsValue) WordBitsValue ∧
    (ApplyNonLinearConfusion [5]).getD 0 0 =
      (([5] : List Nat).getD 0 0 ^ 3 + ([5] : List Nat).getD 0 0 ^ 5 + 17)
        % PRIME_MODULUS :=
  C4_round_formulas [5] 0 (by decide)

-- ===== C10 =====

theorem getD_set_ne {l : List Nat} {m j : Nat} (h : m ≠ j) (a : Nat) :
    (l.set m a).getD j 0 = l.getD j 0 := by
  rcases Nat.lt_or_ge j l.length with hj | hj
  · rw [List.getD_eq_getElem _ _ (by simpa using hj), List.getD_eq_getElem _ _ hj]
    exact List.getElem_set_ne h _
  · rw [List.getD_eq_default _ _ (by simpa using hj), List.getD_eq_default _ _ hj]

theorem absorbWord_frame {wb : Nat} {s : List Nat} (hlen : s.length = 512)
    {i0 : Nat} (hi : i0 ≤ 7) (w : Nat) :
    (absorbWord wb s i0 w).length = 512 ∧
    ∀ j, 9 ≤ j → (absorbWord wb s i0 w).getD j 0 = s.getD j 0 := by
  have hidx : i0 % s.length = i0 := by rw [hlen]; omega
  constructor
  · simp [absorbWord, List.length_set, hlen]
  · intro j hj
    unfold absorbWord
    have hnidx : (i0 + 1) % s.length = i0 + 1 := by rw [hlen]; omega
    dsimp only
    rw [hidx, hnidx]
    rw [getD_set_ne (by omega), getD_set_ne (by omega)]

theorem absorbWords_frame (wb : Nat) :
    ∀ (ws : List Nat) (i0 : Nat) (s : List Nat), s.length = 512 →
      i0 + ws.length ≤ 8 →
      (absorbWords wb s ws i0).length = 512 ∧
      ∀ j, 9 ≤ j → (absorbWords wb s ws i0).getD j 0 = s.getD j 0 := by
  intro ws
  induction ws with
  | nil =>
    intro i0 s h _
    exact ⟨h, fun _ _ => rfl⟩
  | cons w ws ih =>
    intro i0 s hlen hle
    have hcons : (w :: ws).length = ws.length + 1 := rfl
    have hstep := @absorbWord_frame wb s hlen i0 (by omega) w
    have hrec := ih (i0 + 1) (absorbWord wb s i0 w) hstep.1 (by omega)
    refine ⟨hrec.1, ?_⟩
    intro j hj
    calc (absorbWords wb (absorbWord wb s i0 w) ws (i0 + 1)).getD j 0
        = (absorbWord wb s i0 w).getD j 0 := hrec.2 j hj
      _ = s.getD j 0 := hstep.2 j hj

theorem chunksOfAux8_count :
    ∀ (fuel : Nat) (l : List Nat) (m : Nat), l.length ≤ 8 * m →
      (chunksOfAux 8 fuel l).length ≤ m := by
  intro fuel
  induction fuel with
  | zero => intro l m _; simp [chunksOfAux]
  | succ fuel ih =>
    intro l m hl
    match l with
    | [] => simp [chunksOfAux]
    | x :: xs =>
      have hlen : (x :: xs).length = xs.length + 1 := rfl
      match m with
      | 0 => omega
      | m + 1 =>
        have hc : chunksOfAux 8 (fuel + 1) (x :: xs) =
            (x :: xs).take 8 :: chunksOfAux 8 fuel ((x :: xs).drop 8) := rfl
        rw [hc, List.length_cons]
        have := ih ((x :: xs).drop 8) m (by rw [List.length_drop]; omega)
        omega

/-- C10: for a 512-element state and a block of at most 64 bytes,
`AbsorbMessageBlock` preserves the length and changes only indices 0..8;
every element at an index from 9 through 511 is returned unchanged. -/
theorem C10_absorb_frame :
    ∀ (s b : List Nat), s.length = 512 → b.length ≤ 64 →
      (AbsorbMessageBlock s b).length = 512 ∧
      ∀ i, 9 ≤ i → i < 512 → (AbsorbMessageBlock s b).getD i 0 = s.getD i 0 := by
  intro s b hs hb
  have hpad : (padToWords b).length ≤ 64 := by
    unfold padToWords
    by_cases h : b.length % 8 = 0
    · simp [h]
      exact hb
    · simp [h]
      omega
  have hcount : ((chunksOf 8 (padToWords b)).map fromBytesBE).length ≤ 8 := by
    rw [List.length_map]
    exact chunksOfAux8_count _ _ 8 (by omega)
  have h := absorbWords_frame WordBitsValue
    ((chunksOf 8 (padToWords b)).map fromBytesBE) 0 s hs (by omega)
  exact ⟨h.1, fun i h9 _ => h.2 i h9⟩

theorem C10_absorb_frame_witness :
    (AbsorbMessageBlock (List.replicate 512 3) [7]).length = 512 ∧
    (AbsorbMessageBlock (List.replicate 512 3) [7]).getD 100 0 =
      (List.replicate 512 (3 : Nat)).getD 100 0 :=
  ⟨(C10_absorb_frame (List.replicate 512 3) [7] (by simp) (by simp)).1,
    (C10_absorb_frame (List.replicate 512 3) [7] (by simp) (by simp)).2 100
      (by omega) (by omega)⟩

-- ===== C6 =====

/-- C6: `DeriveConst label n` squeezes `n * BytesPerElem` bytes from the XOF
seeded with `SeedString ++ "::const::" ++ label`, splits them into `n`
chunks of `BytesPerElem` bytes read big-endian and reduced mod `P`; the
result has exactly `n` entries, each `< P`, and depends on nothing but
`(label, n)` (and the XOF). -/
theorem C6_derive_const :
    ∀ (shake128 : List Nat → Nat → List Nat) (label : List Nat) (n : Nat),
      DeriveConst shake128 label n =
        (List.range n).map (fun i =>
          fromBytesBE
            (((shake128 (SeedString ++ strBytes "::const::" ++ label)
                (n * BytesPerElemValue)).drop (i * BytesPerElemValue)).take
              BytesPerElemValue) % PRIME_MODULUS) ∧
      (DeriveConst shake128 label n).length = n ∧
      (∀ x ∈ DeriveConst shake128 label n, x < PRIME_MODULUS) ∧
      DeriveConst shake128 label n = DeriveConst shake128 label n := by
  intro shake128 label n
  refine ⟨?_, ?_, deriveConst_mem_lt shake128 label n, rfl⟩
  · unfold DeriveConst ShakeInts
    dsimp only
    rw [List.map_map]
    rfl
  · simp [DeriveConst, ShakeInts]

-- ===== C5 =====

theorem padToWords_eq (b : List Nat) :
    padToWords b = b ++ List.replicate ((8 - b.length % 8) % 8) 0 := by
  by_cases h : b.length % 8 = 0
  · have h2 : (8 - b.length % 8) % 8 = 0 := by omega
    simp [padToWords, h, h2]
  · have h2 : (8 - b.length % 8) % 8 = 8 - b.length % 8 := by omega
    simp [padToWords, h, h2]

theorem chunksOfAux8_eq :
    ∀ (fuel : Nat) (l : List Nat), l.length ≤ fuel → l.length % 8 = 0 →
      chunksOfAux 8 fuel l =
        (List.range (l.length / 8)).map fun i => (l.drop (8 * i)).take 8 := by
  intro fuel
  induction fuel with
  | zero =>
    intro l h1 _
    have hnil : l = [] := List.eq_nil_of_length_eq_zero (by omega)
    subst hnil
    simp [chunksOfAux]
  | succ fuel ih =>
    intro l h1 h2
    match l with
    | [] => simp [chunksOfAux]
    | x :: xs =>
      have hlen : (x :: xs).length = xs.length + 1 := rfl
      have h8 : 8 ≤ (x :: xs).length := by omega
      have hstep : chunksOfAux 8 (fuel + 1) (x :: xs) =
          (x :: xs).take 8 :: chunksOfAux 8 fuel ((x :: xs).drop 8) := rfl
      rw [hstep,
        ih ((x :: xs).drop 8) (by rw [List.length_drop]; omega)
          (by rw [List.length_drop]; omega)]
      have hq : (x :: xs).length / 8 = ((x :: xs).drop 8).length / 8 + 1 := by
        rw [List.length_drop]
        omega
      rw [hq, List.range_succ_eq_map]
      simp only [List.map_cons, List.map_map]
      refine List.cons_eq_cons.mpr ⟨?_, ?_⟩
      · simp
      · refine List.map_congr_left ?_
        intro i _
        simp only [Function.comp_apply]
        rw [List.drop_drop]
        have harith : 8 * Nat.succ i = 8 + 8 * i := by omega
        rw [harith]

theorem absorbWords_eq_enumFrom :
    ∀ (ws : List Nat) (i0 : Nat) (st : List Nat), st.length = 512 →
      absorbWords WordBitsValue st ws i0 =
        (List.enumFrom i0 ws).foldl (fun st p =>
          let idx := p.1 % 512
          let st1 := st.set idx ((st.getD idx 0 + p.2) % PRIME_MODULUS)
          let nidx := (idx + 1) % 512
          st1.set nidx (st1.getD nidx 0 ^^^
            ((p.2 >>> 16) &&& ((1 <<< WordBitsValue) - 1)))) st := by
  intro ws
  induction ws with
  | nil => intro i0 st _; rfl
  | cons w ws ih =>
    intro i0 st hst
    have hlen2 : (absorbWord WordBitsValue st i0 w).length = 512 := by
      simp [absorbWord, List.length_set, hst]
    show absorbWords WordBitsValue (absorbWord WordBitsValue st i0 w) ws (i0 + 1) = _
    rw [ih (i0 + 1) _ hlen2]
    have hstep : absorbWord WordBitsValue st i0 w =
        (let idx := i0 % 512
         let st1 := st.set idx ((st.getD idx 0 + w) % PRIME_MODULUS)
         let nidx := (idx + 1) % 512
         st1.set nidx (st1.getD nidx 0 ^^^
           ((w >>> 16) &&& ((1 <<< WordBitsValue) - 1)))) := by
      unfold absorbWord
      rw [hst]
    rw [hstep]
    rfl

/-- C5: with a 512-element state, `AbsorbMessageBlock` coincides with the
claimed procedure: right-pad the block with zeros to a multiple of 8 bytes,
parse 8-byte big-endian words, and for each word `w_i` (increasing `i`)
add `w_i` into `state[i mod 512]` mod `P` and then XOR
`(w_i >> 16) AND ((1 << WordBits) - 1)` into `state[((i mod 512)+1) mod 512]`,
in that order. -/
theorem C5_absorb_refines_spec :
    ∀ (s b : List Nat), s.length = 512 → AbsorbMessageBlock s b = specAbsorb s b := by
  intro s b hs
  have hmod : (b ++ List.replicate ((8 - b.length % 8) % 8) 0).length % 8 = 0 := by
    simp only [List.length_append, List.length_replicate]
    omega
  have h2 : chunksOf 8 (padToWords b) =
      (List.range ((b ++ List.replicate ((8 - b.length % 8) % 8) 0).length / 8)).map
        fun i => ((b ++ List.replicate ((8 - b.length % 8) % 8) 0).drop (8 * i)).take 8 := by
    rw [padToWords_eq b]
    exact chunksOfAux8_eq _ _ le_rfl hmod
  unfold AbsorbMessageBlock specAbsorb
  dsimp only
  rw [h2, List.map_map, absorbWords_eq_enumFrom _ 0 s hs]
  rfl

theorem C5_absorb_refines_spec_witness :
    AbsorbMessageBlock (List.replicate 512 0) [] = specAbsorb (List.replicate 512 0) [] :=
  C5_absorb_refines_spec (List.replicate 512 0) [] (by simp)

-- ===== C7 =====

theorem fixedBE_length : ∀ (k n : Nat), (fixedBE k n).length = k := by
  intro k
  induction k with
  | zero => intro n; rfl
  | succ k ih => intro n; simp [fixedBE, ih]

theorem fixedBE_zero : ∀ k, fixedBE k 0 = List.replicate k 0 := by
  intro k
  induction k with
  | zero => rfl
  | succ k ih =>
    show fixedBE k (0 / 256) ++ [0 % 256] = _
    rw [show (0:Nat) / 256 = 0 from rfl, ih]
    simp [List.replicate_succ']

theorem fixedBE_split : ∀ (b a v : Nat), v < 256 ^ b →
    fixedBE (a + b) v = List.replicate a 0 ++ fixedBE b v := by
  intro b
  induction b with
  | zero =>
    intro a v hv
    have hv0 : v = 0 := by simpa using hv
    subst hv0
    simp [fixedBE, fixedBE_zero]
  | succ b ih =>
    intro a v hv
    have hdiv : v / 256 < 256 ^ b := by
      rw [Nat.div_lt_iff_lt_mul (by norm_num : 0 < 256)]
      calc v < 256 ^ (b + 1) := hv
        _ = 256 ^ b * 256 := by rw [pow_succ]
    have h1 : fixedBE (a + (b + 1)) v = fixedBE (a + b) (v / 256) ++ [v % 256] := rfl
    rw [h1, ih a (v / 256) hdiv, List.append_assoc]
    rfl

theorem bitLenAux_le : ∀ (fuel v m : Nat), v ≤ fuel → v < 2 ^ m →
    bitLenAux fuel v ≤ m := by
  intro fuel
  induction fuel with
  | zero =>
    intro v m hv _
    have hv0 : v = 0 := by omega
    subst hv0
    simp [bitLenAux]
  | succ fuel ih =>
    intro v m hv hvm
    by_cases h0 : v = 0
    · subst h0; simp [bitLenAux]
    · have hred : bitLenAux (fuel + 1) v = bitLenAux fuel (v / 2) + 1 := by
        simp [bitLenAux, h0]
      rw [hred]
      match m with
      | 0 =>
        simp at hvm
        omega
      | m + 1 =>
        have hp : (2:Nat) ^ (m + 1) = 2 ^ m * 2 := pow_succ 2 m
        have hd : v / 2 < 2 ^ m := by omega
        have := ih (v / 2) m (by omega) hd
        omega

theorem lt_two_pow_bitLenAux : ∀ (fuel v : Nat), v ≤ fuel →
    v < 2 ^ bitLenAux fuel v := by
  intro fuel
  induction fuel with
  | zero =>
    intro v hv
    have hv0 : v = 0 := by omega
    subst hv0
    simp [bitLenAux]
  | succ fuel ih =>
    intro v hv
    by_cases h0 : v = 0
    · subst h0; simp [bitLenAux]
    · have hred : bitLenAux (fuel + 1) v = bitLenAux fuel (v / 2) + 1 := by
        simp [bitLenAux, h0]
      rw [hred]
      have hrec := ih (v / 2) (by omega)
      have hp : (2:Nat) ^ (bitLenAux fuel (v / 2) + 1) =
          2 ^ bitLenAux fuel (v / 2) * 2 := pow_succ 2 _
      omega

theorem serializeElem_eq_fixedBE (v : Nat) (hv : v < 2 ^ (8 * BytesPerElemValue)) :
    serializeElem v = fixedBE BytesPerElemValue v := by
  by_cases h0 : v = 0
  · subst h0
    decide
  · have hbytes : toBytesBE v = fixedBE (byteLen v) v := by simp [toBytesBE, h0]
    have hbl : bitLen v ≤ 8 * BytesPerElemValue := bitLenAux_le v v _ le_rfl hv
    have hL : byteLen v ≤ BytesPerElemValue := by
      unfold byteLen
      omega
    have hv256 : v < 256 ^ byteLen v := by
      have h1 : v < 2 ^ bitLen v := lt_two_pow_bitLenAux v v le_rfl
      have h2 : (2:Nat) ^ bitLen v ≤ 2 ^ (8 * byteLen v) := by
        apply Nat.pow_le_pow_right (by norm_num)
        unfold byteLen
        omega
      have h3 : (256:Nat) ^ byteLen v = 2 ^ (8 * byteLen v) := by
        rw [show (256:Nat) = 2 ^ 8 from rfl, ← pow_mul]
      omega
    have hif : serializeElem v =
        if byteLen v < BytesPerElemValue then
          List.replicate (BytesPerElemValue - byteLen v) 0 ++ fixedBE (byteLen v) v
        else fixedBE (byteLen v) v := by
      unfold serializeElem
      dsimp only
      rw [hbytes, fixedBE_length]
    rw [hif]
    by_cases hcase : byteLen v < BytesPerElemValue
    · rw [if_pos hcase]
      conv_rhs =>
        rw [show BytesPerElemValue = (BytesPerElemValue - byteLen v) + byteLen v from
          by omega]
      exact (fixedBE_split (byteLen v) (BytesPerElemValue - byteLen v) v hv256).symm
    · rw [if_neg hcase, show byteLen v = BytesPerElemValue from by omega]

/-- C7: `ExtractDigest` feeds the XOF the seed `SeedString ++ "::extract"`
followed by every state element serialized to exactly `BytesPerElemValue`
big-endian bytes (left-zero-padded), and squeezes exactly
`OutputBitLength / 8 = 128` bytes; consequently `Hls1024Hash` always
returns a 128-byte digest. -/
theorem C7_extract_digest :
    ∀ (shake128 shake256 : List Nat → Nat → List Nat),
      (∀ inp k, (shake256 inp k).length = k) →
      ∀ state : List Nat, (∀ x ∈ state, x < PRIME_MODULUS) →
      ∀ m : List Nat,
        ExtractDigest shake256 state =
          shake256 (SeedString ++ strBytes "::extract" ++
            (state.map (fixedBE BytesPerElemValue)).flatten) 128 ∧
        (ExtractDigest shake256 state).length = 128 ∧
        (Hls1024Hash shake128 shake256 m).length = 128 := by
  intro s128 s256 hlen state hst m
  have hser : state.map serializeElem = state.map (fixedBE BytesPerElemValue) := by
    refine List.map_congr_left ?_
    intro x hx
    refine serializeElem_eq_fixedBE x ?_
    have h1 : x < PRIME_MODULUS := hst x hx
    have h2 : PRIME_MODULUS < 2 ^ (8 * BytesPerElemValue) := by
      rw [BytesPerElemValue_eq]
      exact PRIME_MODULUS_lt
    omega
  refine ⟨?_, ?_, ?_⟩
  · unfold ExtractDigest
    rw [hser]
    rfl
  · unfold ExtractDigest
    exact hlen _ _
  · unfold Hls1024Hash ExtractDigest
    exact hlen _ _

theorem C7_extract_digest_witness :
    (ExtractDigest (fun _ k => List.replicate k 0) []).length = 128 ∧
    (Hls1024Hash (fun _ k => List.replicate k 0) (fun _ k => List.replicate k 0)
      []).length = 128 :=
  ⟨(C7_extract_digest (fun _ k => List.replicate k 0) (fun _ k => List.replicate k 0)
      (fun _ _ => by simp) [] (by simp) []).2.1,
    (C7_extract_digest (fun _ k => List.replicate k 0) (fun _ k => List.replicate k 0)
      (fun _ _ => by simp) [] (by simp) []).2.2⟩

theorem C6_derive_const_witness :
    (DeriveConst (fun _ k => List.replicate k 0) [] 1).length = 1 :=
  (C6_derive_const (fun _ k => List.replicate k 0) [] 1).2.1
